import Mathlib

/-!
Verification of the Bayesian signal-weight optimizer
(`src/python/optimizers/bayesian_optimizer.py` and
`src/python/api/optimizer_server.py`).

Floating-point scores and weights are embedded as rationals; numpy arrays
become lists ordered by the declaration order of the signals; Python dicts
keyed by signal id become association lists.  Randomness
(`np.random.uniform`) is an injected draw function; the Gaussian-process
surrogate (`sklearn`) and the standard-normal CDF/PDF (`scipy`) are injected
function parameters, since they are external libraries, not repository code.
-/

/-- Mirrors the dataclass `SignalBounds` of `bayesian_optimizer.py`. -/
structure SignalBounds where
  signal_id : String
  min_weight : ℚ
  max_weight : ℚ
  initial_weight : ℚ
deriving DecidableEq, Repr

/-- A Python dict mapping signal ids to weights, as an association list in
declaration order. -/
abbrev WeightDict := List (String × ℚ)

/-- Mirrors `BayesianOptimizer._normalize`: divide by the total when it is
positive, otherwise fall back to the uniform vector `1/n`. -/
def pyNormalize (w : List ℚ) : List ℚ :=
  let total := w.sum
  if 0 < total then w.map (fun x => x / total)
  else List.replicate w.length (1 / (w.length : ℚ))

/-- Mirrors `BayesianOptimizer._weights_to_dict`: optionally normalize, then
zip with the signal ids. -/
def weightsToDict (signal_ids : List String) (normalize_weights : Bool)
    (w : List ℚ) : WeightDict :=
  signal_ids.zip (if normalize_weights then pyNormalize w else w)

/-- Mirrors `np.max` on a nonempty array (the empty case never arises in the
guarded call sites; it is given the junk value 0). -/
def listMax : List ℚ → ℚ
  | [] => 0
  | [x] => x
  | x :: y :: xs => max x (listMax (y :: xs))

/-- Mirrors `np.argmax`: index of the maximum, first occurrence on ties. -/
def argmaxIdx : List ℚ → Nat
  | [] => 0
  | [_] => 0
  | x :: y :: xs =>
    let j := argmaxIdx (y :: xs)
    if x < (y :: xs).getD j 0 then j + 1 else 0

theorem argmaxIdx_lt_length : ∀ (l : List ℚ), l ≠ [] → argmaxIdx l < l.length
  | [], h => absurd rfl h
  | [_], _ => Nat.zero_lt_one
  | x :: y :: xs, _ => by
    simp only [argmaxIdx]
    split
    · have := argmaxIdx_lt_length (y :: xs) (by simp)
      simpa using Nat.succ_lt_succ this
    · simp

theorem argmaxIdx_is_max : ∀ (l : List ℚ) (i : Nat), i < l.length →
    l.getD i 0 ≤ l.getD (argmaxIdx l) 0
  | [], i, h => by simp at h
  | [x], i, h => by
    match i with
    | 0 => simp [argmaxIdx]
    | i + 1 => simp at h
  | x :: y :: xs, i, h => by
    simp only [argmaxIdx]
    split
    · rename_i hlt
      match i with
      | 0 => simpa using le_of_lt hlt
      | i + 1 =>
        have := argmaxIdx_is_max (y :: xs) i (by simpa using h)
        simpa using this
    · rename_i hge
      push_neg at hge
      match i with
      | 0 => simp
      | i + 1 =>
        have h1 := argmaxIdx_is_max (y :: xs) i (by simpa using h)
        simpa using le_trans h1 hge

theorem argmaxIdx_first : ∀ (l : List ℚ) (i : Nat), i < argmaxIdx l →
    l.getD i 0 < l.getD (argmaxIdx l) 0
  | [], i, h => by simp [argmaxIdx] at h
  | [x], i, h => by simp [argmaxIdx] at h
  | x :: y :: xs, i, h => by
    revert h
    simp only [argmaxIdx]
    split
    · rename_i hlt
      intro h
      match i with
      | 0 => simpa using hlt
      | i + 1 =>
        have := argmaxIdx_first (y :: xs) i (by omega)
        simpa using this
    · intro h
      omega

theorem le_listMax : ∀ (l : List ℚ) (x : ℚ), x ∈ l → x ≤ listMax l
  | [], x, h => by simp at h
  | [y], x, h => by simp at h; simp [listMax, h]
  | y :: z :: xs, x, h => by
    simp only [listMax]
    rcases List.mem_cons.mp h with h1 | h2
    · exact h1 ▸ le_max_left _ _
    · exact le_trans (le_listMax (z :: xs) x h2) (le_max_right _ _)

theorem listMax_mem : ∀ (l : List ℚ), l ≠ [] → listMax l ∈ l
  | [], h => absurd rfl h
  | [x], _ => by simp [listMax]
  | x :: y :: xs, _ => by
    simp only [listMax]
    rcases le_total x (listMax (y :: xs)) with h | h
    · have hm := listMax_mem (y :: xs) (by simp)
      rw [max_eq_right h]
      exact List.mem_cons_of_mem x hm
    · simp [max_eq_left h]

theorem sum_map_div (w : List ℚ) (t : ℚ) :
    (w.map (fun x => x / t)).sum = w.sum / t := by
  induction w with
  | nil => simp
  | cons x xs ih => simp [ih, add_div]

theorem pyNormalize_length (w : List ℚ) : (pyNormalize w).length = w.length := by
  simp only [pyNormalize]
  split <;> simp

theorem pyNormalize_sum (w : List ℚ) (h : 0 < w.length) :
    (pyNormalize w).sum = 1 := by
  simp only [pyNormalize]
  split
  · rename_i ht
    rw [sum_map_div]
    exact div_self (ne_of_gt ht)
  · rw [List.sum_replicate, nsmul_eq_mul, mul_one_div]
    have hn : ((w.length : ℚ)) ≠ 0 := Nat.cast_ne_zero.mpr (Nat.not_eq_zero_of_lt h)
    exact div_self hn

/-- C1 counterexample: the input `[2, 2]` has a positive sum, yet
`_normalize` returns the uniform vector `1/n`, so the returned vector is
NOT uniform "exactly when" the raw input sum is at most 0. -/
theorem claim_C1_counterexample :
    pyNormalize [2, 2] = List.replicate 2 ((1 : ℚ) / 2) ∧
      (0 : ℚ) < ([2, 2] : List ℚ).sum := by
  constructor
  · norm_num [pyNormalize, List.replicate]
  · norm_num

/-- C1 (amended): for a nonempty input array, the normalization step returns
a vector summing exactly to 1 (hence within 1e-9); it is the uniform vector
`1/n` whenever the raw sum is at most 0, and each component is divided by
the sum whenever the sum is positive (in which case the result can also
coincide with the uniform vector). -/
theorem claim_C1_normalize_sum_and_branches (w : List ℚ) (h : 0 < w.length) :
    (pyNormalize w).sum = 1 ∧
      (w.sum ≤ 0 → pyNormalize w = List.replicate w.length (1 / (w.length : ℚ))) ∧
      (0 < w.sum → pyNormalize w = w.map (fun x => x / w.sum)) := by
  refine ⟨pyNormalize_sum w h, ?_, ?_⟩
  · intro hle
    simp only [pyNormalize]
    rw [if_neg (by exact not_lt.mpr hle)]
  · intro hpos
    simp only [pyNormalize]
    rw [if_pos hpos]

/-- C1 witness: the amended theorem applied at the concrete input `[2, 3]`. -/
theorem claim_C1_witness :
    0 < ([2, 3] : List ℚ).length ∧ (pyNormalize [2, 3]).sum = 1 :=
  ⟨by decide, (claim_C1_normalize_sum_and_branches [2, 3] (by decide)).1⟩

/-- C10: normalization is idempotent; in particular re-normalizing the
already-normalized best point in `optimize` does not change it. -/
theorem claim_C10_normalize_idempotent (w : List ℚ) :
    pyNormalize (pyNormalize w) = pyNormalize w := by
  match w with
  | [] => rfl
  | x :: xs =>
    have hlen : 0 < (x :: xs).length := by simp
    have hsum : (pyNormalize (x :: xs)).sum = 1 := pyNormalize_sum _ hlen
    conv_lhs => rw [pyNormalize]
    rw [hsum]
    rw [if_pos (by norm_num)]
    have : (fun y => y / (1 : ℚ)) = fun y => y := by
      funext y
      exact div_one y
    rw [this]
    exact List.map_id _

/-- Mirrors one step of `wrapped_objective` in `BayesianOptimizer.optimize`:
append the new score if it beats the last recorded best, otherwise repeat
the last recorded best. -/
def convStep (acc : List ℚ) (score : ℚ) : List ℚ :=
  match acc.getLast? with
  | none => acc ++ [score]
  | some b => if b < score then acc ++ [score] else acc ++ [b]

/-- The convergence history produced by running `wrapped_objective` on the
given sequence of objective scores, in call order. -/
def convergenceHistory (scores : List ℚ) : List ℚ := scores.foldl convStep []

theorem getLast?_eq_getD {l : List ℚ} (h : l ≠ []) :
    l.getLast? = some (l.getD (l.length - 1) 0) := by
  have hpos : 0 < l.length := List.length_pos.mpr h
  rw [List.getLast?_eq_getElem?, List.getElem?_eq_getElem (by omega),
    List.getD_eq_getElem l 0 (by omega)]

theorem getD_concat_self : ∀ (xs : List ℚ) (v d : ℚ),
    (xs ++ [v]).getD xs.length d = v
  | [], v, d => rfl
  | x :: xs, v, d => by
    show (xs ++ [v]).getD xs.length d = v
    exact getD_concat_self xs v d

theorem getD_append_left (xs ys : List ℚ) (i : Nat) (d : ℚ) (h : i < xs.length) :
    (xs ++ ys).getD i d = xs.getD i d := by
  rw [List.getD_eq_getElem _ d (by simp; omega), List.getD_eq_getElem _ d h]
  exact List.getElem_append_left h

theorem listMax_concat : ∀ (l : List ℚ) (s : ℚ), l ≠ [] →
    listMax (l ++ [s]) = max (listMax l) s
  | [], _, h => absurd rfl h
  | [x], s, _ => by simp [listMax]
  | x :: y :: ys, s, _ => by
    have ih := listMax_concat (y :: ys) s (by simp)
    show max x (listMax ((y :: ys) ++ [s])) = max (max x (listMax (y :: ys))) s
    rw [ih, max_assoc]

theorem convergenceHistory_concat (l : List ℚ) (s : ℚ) :
    convergenceHistory (l ++ [s]) = convStep (convergenceHistory l) s := by
  simp [convergenceHistory, List.foldl_append]

theorem convergenceHistory_spec (l : List ℚ) :
    (convergenceHistory l).length = l.length ∧
      ∀ i, i < l.length →
        (convergenceHistory l).getD i 0 = listMax (l.take (i + 1)) := by
  induction l using List.reverseRecOn with
  | nil => exact ⟨rfl, by intro i h; simp at h⟩
  | append_singleton l s ih =>
    obtain ⟨hlen, hget⟩ := ih
    rw [convergenceHistory_concat]
    match hl : l with
    | [] =>
      constructor
      · simp [convergenceHistory, convStep]
      · intro i hi
        match i with
        | 0 => simp [convergenceHistory, convStep, listMax]
        | i + 1 => simp at hi
    | a :: as =>
      have hne : convergenceHistory (a :: as) ≠ [] := by
        intro hc
        rw [hc] at hlen
        simp at hlen
      have hlast : (convergenceHistory (a :: as)).getLast? =
          some ((convergenceHistory (a :: as)).getD ((a :: as).length - 1) 0) := by
        rw [getLast?_eq_getD hne, hlen]
      have hbest : (convergenceHistory (a :: as)).getD ((a :: as).length - 1) 0 =
          listMax (a :: as) := by
        rw [hget ((a :: as).length - 1) (by simp)]
        congr 1
        have : (a :: as).length - 1 + 1 = (a :: as).length := by simp
        rw [this, List.take_length]
      have hstep : convStep (convergenceHistory (a :: as)) s =
          convergenceHistory (a :: as) ++ [max (listMax (a :: as)) s] := by
        simp only [convStep, hlast, hbest]
        rcases lt_or_ge (listMax (a :: as)) s with hc | hc
        · rw [if_pos hc, max_eq_right (le_of_lt hc)]
        · rw [if_neg (not_lt.mpr hc), max_eq_left hc]
      rw [hstep]
      constructor
      · simp [hlen]
      · intro i hi
        rcases Nat.lt_or_ge i (a :: as).length with hcase | hcase
        · rw [getD_append_left _ _ i 0 (by omega), hget i hcase]
          congr 1
          exact (List.take_append_of_le_length (by omega)).symm
        · have hieq : i = (a :: as).length := by
            simp only [List.length_append, List.length_cons,
              List.length_nil] at hi hcase ⊢
            omega
          subst hieq
          have h1 : (convergenceHistory (a :: as) ++
              [max (listMax (a :: as)) s]).getD (a :: as).length 0 =
              max (listMax (a :: as)) s := by
            conv_lhs => rw [← hlen]
            exact getD_concat_self _ _ _
          rw [h1]
          have h2 : ((a :: as) ++ [s]).take ((a :: as).length + 1) =
              (a :: as) ++ [s] := by
            apply List.take_of_length_le
            simp
          rw [h2]
          exact (listMax_concat (a :: as) s (by simp)).symm

/-- C4: for every sequence of objective scores observed by the batch run,
the convergence history has one entry per score, entry `i` equals the
maximum of scores 0..i, the history is non-decreasing, and its final entry
equals the maximum of all scores. -/
theorem claim_C4_convergence_running_max (scores : List ℚ) :
    (convergenceHistory scores).length = scores.length ∧
      (∀ i, i < scores.length →
        (convergenceHistory scores).getD i 0 = listMax (scores.take (i + 1))) ∧
      (∀ i j, i ≤ j → j < scores.length →
        (convergenceHistory scores).getD i 0 ≤
          (convergenceHistory scores).getD j 0) ∧
      (scores ≠ [] →
        (convergenceHistory scores).getD (scores.length - 1) 0 =
          listMax scores) := by
  obtain ⟨hlen, hget⟩ := convergenceHistory_spec scores
  have hmono : ∀ i j : Nat, i ≤ j → j < scores.length →
      listMax (scores.take (i + 1)) ≤ listMax (scores.take (j + 1)) := by
    intro i j hij hj
    have hlt : (scores.take (i + 1)).length = min (i + 1) scores.length :=
      List.length_take _ _
    have hne : scores.take (i + 1) ≠ [] := by
      intro hc
      rw [hc] at hlt
      simp at hlt
      omega
    have hmem : listMax (scores.take (i + 1)) ∈ scores.take (i + 1) :=
      listMax_mem _ hne
    have hsub : scores.take (i + 1) = (scores.take (j + 1)).take (i + 1) := by
      rw [List.take_take]
      congr 1
      omega
    have hincl : ∀ x : ℚ, x ∈ scores.take (i + 1) → x ∈ scores.take (j + 1) := by
      intro x hx
      rw [hsub] at hx
      exact List.mem_of_mem_take hx
    exact le_listMax _ _ (hincl _ hmem)
  refine ⟨hlen, hget, ?_, ?_⟩
  · intro i j hij hj
    rw [hget i (by omega), hget j hj]
    exact hmono i j hij hj
  · intro hne
    have hpos : 0 < scores.length := List.length_pos.mpr hne
    rw [hget (scores.length - 1) (by omega)]
    congr 1
    have : scores.length - 1 + 1 = scores.length := by omega
    rw [this, List.take_length]

/-- C4 witness: the claim theorem applied at the concrete score sequence
`[3, 1, 4]`, reading off the final element of the history. -/
theorem claim_C4_witness :
    ([3, 1, 4] : List ℚ) ≠ [] ∧
      (convergenceHistory [3, 1, 4]).getD (([3, 1, 4] : List ℚ).length - 1) 0 =
        listMax [3, 1, 4] :=
  ⟨by simp, (claim_C4_convergence_running_max [3, 1, 4]).2.2.2 (by simp)⟩

/-- Mirrors the Python slice `l[-n:]`.  Note that for `n = 0` the slice
`l[-0:]` is `l[0:]`, the whole list, not the empty list. -/
def pyLastSlice {α : Type} (l : List α) (n : Nat) : List α :=
  if n = 0 then l else l.drop (l.length - n)

/-- The mutable state of `OnlineBayesianOptimizer`. -/
structure OnlineState where
  window_size : Nat
  update_interval : Nat
  evaluation_history : List (WeightDict × ℚ)
  current_weights : WeightDict
  evaluation_count : Nat
deriving DecidableEq, Repr

/-- Mirrors `OnlineBayesianOptimizer.__init__`: empty history, zero count,
current weights seeded from each initial weight. -/
def initOnline (signal_bounds : List SignalBounds)
    (window_size update_interval : Nat) : OnlineState :=
  ⟨window_size, update_interval, [],
    signal_bounds.map (fun s => (s.signal_id, s.initial_weight)), 0⟩

/-- Mirrors `OnlineBayesianOptimizer.record_evaluation`: append, increment
the count, and trim with the slice `history[-window_size:]` when the length
exceeds `window_size`. -/
def recordEvaluation (st : OnlineState) (weights : WeightDict)
    (score : ℚ) : OnlineState :=
  let h := st.evaluation_history ++ [(weights, score)]
  ⟨st.window_size, st.update_interval,
    if st.window_size < h.length then pyLastSlice h st.window_size else h,
    st.current_weights, st.evaluation_count + 1⟩

/-- A sequence of `record_evaluation` calls, in order. -/
def runRecords (st : OnlineState) (es : List (WeightDict × ℚ)) : OnlineState :=
  es.foldl (fun s e => recordEvaluation s e.1 e.2) st

/-- Mirrors `OnlineBayesianOptimizer.should_update`. -/
def shouldUpdate (st : OnlineState) : Bool :=
  st.evaluation_count % st.update_interval == 0

/-- Mirrors `OnlineBayesianOptimizer.get_best_weights`: current weights on an
empty history, otherwise the weights of the `np.argmax` entry. -/
def getBestWeights (st : OnlineState) : WeightDict :=
  if st.evaluation_history = [] then st.current_weights
  else (st.evaluation_history.getD
    (argmaxIdx (st.evaluation_history.map Prod.snd)) ([], 0)).1

theorem runRecords_concat (st : OnlineState) (es : List (WeightDict × ℚ))
    (e : WeightDict × ℚ) :
    runRecords st (es ++ [e]) = recordEvaluation (runRecords st es) e.1 e.2 := by
  simp [runRecords, List.foldl_append]

theorem runRecords_window (st : OnlineState) (es : List (WeightDict × ℚ)) :
    (runRecords st es).window_size = st.window_size := by
  induction es generalizing st with
  | nil => rfl
  | cons e es ih =>
    show (runRecords (recordEvaluation st e.1 e.2) es).window_size =
      st.window_size
    rw [ih]
    rfl

theorem runRecords_history (b : List SignalBounds) (w u : Nat) (hw : 1 ≤ w) :
    ∀ es : List (WeightDict × ℚ),
      (runRecords (initOnline b w u) es).evaluation_history =
        es.drop (es.length - w) := by
  intro es
  induction es using List.reverseRecOn with
  | nil => simp [runRecords, initOnline]
  | append_singleton es e ih =>
    rw [runRecords_concat]
    have hwin : (runRecords (initOnline b w u) es).window_size = w :=
      runRecords_window _ _
    simp only [recordEvaluation, hwin, ih, Prod.mk.eta]
    have hdrop : es.drop (es.length - w) ++ [e] =
        (es ++ [e]).drop (es.length - w) := by
      rw [List.drop_append_of_le_length (by omega)]
    rcases Nat.lt_or_ge es.length w with hm | hm
    · have h0 : es.length - w = 0 := by omega
      rw [h0]
      simp only [List.drop_zero]
      rw [if_neg (by simp; omega)]
      have h2 : (es ++ [e]).length - w = 0 := by simp; omega
      rw [h2, List.drop_zero]
    · have hlen : (es.drop (es.length - w) ++ [e]).length = w + 1 := by
        simp only [List.length_append, List.length_drop, List.length_cons,
          List.length_nil]
        omega
      rw [if_pos (by rw [hlen]; omega)]
      simp only [pyLastSlice, hlen]
      rw [if_neg (by omega), hdrop, List.drop_drop]
      congr 1
      simp only [List.length_append, List.length_cons, List.length_nil]
      omega

/-- C2 counterexample: with `window_size = 0`, the Python slice
`history[-0:]` is the whole list, so one insertion already leaves the
history longer than the window. -/
theorem claim_C2_counterexample :
    (recordEvaluation (initOnline [] 0 10) [] 0).window_size <
      (recordEvaluation (initOnline [] 0 10) [] 0).evaluation_history.length := by
  decide

/-- C2 (amended): for `window_size ≥ 1`, after any sequence of
`record_evaluation` calls the history is the suffix of the inserted items of
length at most `window_size`; hence the length never exceeds `window_size`,
and after `window_size + k` insertions (k > 0) exactly the last
`window_size` items are retained, in insertion order. -/
theorem claim_C2_sliding_window (b : List SignalBounds) (w u : Nat)
    (es : List (WeightDict × ℚ)) (hw : 1 ≤ w) :
    (runRecords (initOnline b w u) es).evaluation_history =
        es.drop (es.length - w) ∧
      (runRecords (initOnline b w u) es).evaluation_history.length ≤ w ∧
      (∀ k, 0 < k → es.length = w + k →
        (runRecords (initOnline b w u) es).evaluation_history = es.drop k) := by
  have h := runRecords_history b w u hw es
  refine ⟨h, ?_, ?_⟩
  · rw [h, List.length_drop]
    omega
  · intro k _ hk
    rw [h, hk]
    congr 1
    omega

/-- C2 witness: the amended theorem at window size 1 and two insertions. -/
theorem claim_C2_witness :
    1 ≤ 1 ∧
      (runRecords (initOnline [] 1 10) [([], 5), ([], 7)]).evaluation_history =
        ([([], 5), ([], 7)] : List (WeightDict × ℚ)).drop
          (([([], 5), ([], 7)] : List (WeightDict × ℚ)).length - 1) :=
  ⟨le_refl 1, (claim_C2_sliding_window [] 1 10 [([], 5), ([], 7)] (le_refl 1)).1⟩

/-- C3 counterexample: a freshly created online optimizer has
`evaluation_count = 0`, which is not a positive multiple of the update
interval, yet `should_update()` already returns true (`0 % 10 == 0`). -/
theorem claim_C3_counterexample :
    (initOnline [] 5 10).evaluation_count = 0 ∧
      shouldUpdate (initOnline [] 5 10) = true := by
  constructor
  · rfl
  · rfl

/-- C3 (amended): for a positive `update_interval`, `should_update()` is
true exactly when `update_interval` divides `evaluation_count` — including
`evaluation_count = 0`, where it is true, not false. -/
theorem claim_C3_should_update_iff (st : OnlineState)
    (_h : 0 < st.update_interval) :
    shouldUpdate st = true ↔ st.update_interval ∣ st.evaluation_count := by
  simp only [shouldUpdate, beq_iff_eq]
  exact Nat.dvd_iff_mod_eq_zero.symm

/-- C3 witness: the amended theorem at a state with count 20, interval 10. -/
theorem claim_C3_witness :
    0 < (10 : Nat) ∧ (shouldUpdate ⟨100, 10, [], [], 20⟩ = true ↔ 10 ∣ 20) :=
  ⟨by decide, claim_C3_should_update_iff ⟨100, 10, [], [], 20⟩ (by decide)⟩

/-- C6: with an empty history `get_best_weights` returns `current_weights`,
which on a fresh optimizer is exactly the declared initial weights and is
never modified by `record_evaluation`; with a nonempty history it returns
the weights of the entry whose score is maximal, ties resolved in favor of
the earliest entry in the window (`np.argmax` picks the first maximum). -/
theorem claim_C6_get_best_weights (st : OnlineState)
    (hne : st.evaluation_history ≠ []) :
    (∀ b w u, getBestWeights (initOnline b w u) =
      b.map (fun s => (s.signal_id, s.initial_weight))) ∧
      (∀ wt sc, (recordEvaluation st wt sc).current_weights =
        st.current_weights) ∧
      getBestWeights st =
        (st.evaluation_history.getD
          (argmaxIdx (st.evaluation_history.map Prod.snd)) ([], 0)).1 ∧
      argmaxIdx (st.evaluation_history.map Prod.snd) <
        st.evaluation_history.length ∧
      (∀ j, j < st.evaluation_history.length →
        (st.evaluation_history.map Prod.snd).getD j 0 ≤
          (st.evaluation_history.map Prod.snd).getD
            (argmaxIdx (st.evaluation_history.map Prod.snd)) 0) ∧
      (∀ j, j < argmaxIdx (st.evaluation_history.map Prod.snd) →
        (st.evaluation_history.map Prod.snd).getD j 0 <
          (st.evaluation_history.map Prod.snd).getD
            (argmaxIdx (st.evaluation_history.map Prod.snd)) 0) := by
  have hmapne : st.evaluation_history.map Prod.snd ≠ [] := by
    intro hc
    exact hne (List.map_eq_nil_iff.mp hc)
  refine ⟨?_, ?_, ?_, ?_, ?_, ?_⟩
  · intro b w u
    simp [getBestWeights, initOnline]
  · intro wt sc
    rfl
  · simp [getBestWeights, hne]
  · have := argmaxIdx_lt_length _ hmapne
    simpa using this
  · intro j hj
    exact argmaxIdx_is_max _ j (by simpa using hj)
  · intro j hj
    exact argmaxIdx_first _ j hj

/-- C6 witness: the theorem at a two-entry history; the best entry is the
second one, with score 3. -/
theorem claim_C6_witness :
    (⟨5, 2, [([("A", 1/5)], 1), ([("A", 4/5)], 3)], [("A", 1/2)], 2⟩ :
        OnlineState).evaluation_history ≠ [] ∧
      getBestWeights
        ⟨5, 2, [([("A", 1/5)], 1), ([("A", 4/5)], 3)], [("A", 1/2)], 2⟩ =
        ((⟨5, 2, [([("A", 1/5)], 1), ([("A", 4/5)], 3)], [("A", 1/2)], 2⟩ :
          OnlineState).evaluation_history.getD
          (argmaxIdx
            ((⟨5, 2, [([("A", 1/5)], 1), ([("A", 4/5)], 3)], [("A", 1/2)], 2⟩ :
              OnlineState).evaluation_history.map Prod.snd)) ([], 0)).1 :=
  ⟨by simp, (claim_C6_get_best_weights
    ⟨5, 2, [([("A", 1/5)], 1), ([("A", 4/5)], 3)], [("A", 1/2)], 2⟩
    (by simp)).2.2.1⟩

/-- Mirrors the cold-start branch of `BayesianOptimizer.suggest_next`
(fewer than 3 evaluated points): each suggestion is one uniform draw per
signal, converted through `_weights_to_dict`.  The draws of
`np.random.uniform(s.min_weight, s.max_weight)` are injected as `draw i d`,
the draw for suggestion `i`, dimension `d`. -/
def suggestNextCold (bounds : List SignalBounds) (normalize_weights : Bool)
    (draw : Nat → Nat → ℚ) (n_suggestions : Nat) : List WeightDict :=
  (List.range n_suggestions).map (fun i =>
    weightsToDict (bounds.map (fun s => s.signal_id)) normalize_weights
      ((List.range bounds.length).map (fun d => draw i d)))

theorem weightsToDict_true (ids : List String) (w : List ℚ) :
    weightsToDict ids true w = ids.zip (pyNormalize w) := rfl

theorem weightsToDict_false (ids : List String) (w : List ℚ) :
    weightsToDict ids false w = ids.zip w := rfl

theorem map_snd_zip_len : ∀ (l₁ : List String) (l₂ : List ℚ),
    l₁.length = l₂.length → (l₁.zip l₂).map Prod.snd = l₂
  | [], [], _ => rfl
  | [], _ :: _, h => by simp at h
  | _ :: _, [], h => by simp at h
  | a :: l₁, b :: l₂, h => by
    simp only [List.zip_cons_cons, List.map_cons]
    rw [map_snd_zip_len l₁ l₂ (by simpa using h)]

theorem getD_map_range (f : Nat → ℚ) (n d : Nat) (h : d < n) :
    ((List.range n).map f).getD d 0 = f d := by
  rw [List.getD_eq_getElem _ _ (by simpa using h)]
  simp

/-- C5 counterexample: with bounds `[0, 3/10]` for both signals and draws of
`1/10` (inside the bounds), simplex normalization rescales each component to
`1/2`, which lies OUTSIDE the declared `[0, 3/10]` interval; so suggestions
need not respect the per-signal bounds when simplex mode is enabled. -/
theorem claim_C5_counterexample :
    suggestNextCold [⟨"A", 0, 3/10, 1/10⟩, ⟨"B", 0, 3/10, 1/10⟩] true
        (fun _ _ => 1/10) 2 =
      [[("A", 1/2), ("B", 1/2)], [("A", 1/2), ("B", 1/2)]] ∧
      ((0 : ℚ) ≤ 1/10 ∧ (1 : ℚ)/10 ≤ 3/10) ∧ ¬ ((1 : ℚ)/2 ≤ 3/10) := by
  refine ⟨?_, by norm_num, by norm_num⟩
  show List.map _ (List.range 2) = _
  rw [List.range_succ, List.range_succ, List.range_zero]
  simp only [List.nil_append, List.cons_append, List.map_cons, List.map_nil]
  norm_num [weightsToDict, pyNormalize]
  simp [List.replicate]

/-- C5 (amended): the cold-start branch returns exactly `n_suggestions`
weight dictionaries; when simplex mode is enabled each dictionary sums to 1;
the raw random draws (before normalization) always respect the per-signal
bounds, and with simplex mode disabled the returned values therefore lie in
the declared intervals — but after normalization they need not. -/
theorem claim_C5_suggest_cold (bounds : List SignalBounds)
    (draw : Nat → Nat → ℚ) (n : Nat) (hb : 0 < bounds.length)
    (hdraw : ∀ i d, d < bounds.length →
      (bounds.getD d ⟨"", 0, 0, 0⟩).min_weight ≤ draw i d ∧
        draw i d ≤ (bounds.getD d ⟨"", 0, 0, 0⟩).max_weight) :
    (suggestNextCold bounds true draw n).length = n ∧
      (∀ s ∈ suggestNextCold bounds true draw n, (s.map Prod.snd).sum = 1) ∧
      (∀ s ∈ suggestNextCold bounds false draw n, ∀ d, d < bounds.length →
        (bounds.getD d ⟨"", 0, 0, 0⟩).min_weight ≤ (s.map Prod.snd).getD d 0 ∧
          (s.map Prod.snd).getD d 0 ≤ (bounds.getD d ⟨"", 0, 0, 0⟩).max_weight) := by
  refine ⟨by simp [suggestNextCold], ?_, ?_⟩
  · intro s hs
    simp only [suggestNextCold, List.mem_map, List.mem_range] at hs
    obtain ⟨i, _, hi⟩ := hs
    subst hi
    rw [weightsToDict_true, map_snd_zip_len _ _ (by simp [pyNormalize_length])]
    exact pyNormalize_sum _ (by simpa using hb)
  · intro s hs d hd
    simp only [suggestNextCold, List.mem_map, List.mem_range] at hs
    obtain ⟨i, _, hi⟩ := hs
    subst hi
    rw [weightsToDict_false, map_snd_zip_len _ _ (by simp)]
    rw [getD_map_range _ _ d hd]
    exact hdraw i d hd

/-- C5 witness: the amended theorem at a single signal with bounds `[0, 1]`
and constant draws `1/2`. -/
theorem claim_C5_witness :
    0 < ([⟨"A", 0, 1, 1/2⟩] : List SignalBounds).length ∧
      (suggestNextCold [⟨"A", 0, 1, 1/2⟩] true (fun _ _ => 1/2) 2).length = 2 :=
  ⟨by simp, (claim_C5_suggest_cold [⟨"A", 0, 1, 1/2⟩] (fun _ _ => 1/2) 2
    (by simp)
    (by
      intro i d hd
      have hd0 : d = 0 := by simpa using hd
      subst hd0
      norm_num [List.getD])).1⟩

/-- The epsilon added to the standard deviation in the EI denominator
(`1e-8` in `suggest_next`). -/
def eiEpsilon : ℚ := 1 / 100000000

/-- Mirrors the EI computation of `suggest_next`:
`z = (mean - best_y) / (std + 1e-8)` and `ei = std * (z * cdf(z) + pdf(z))`.
The standard-normal CDF and PDF (`scipy.stats.norm`) are injected. -/
def expectedImprovement (normCdf normPdf : ℚ → ℚ)
    (best_y mean std : ℚ) : ℚ :=
  let z := (mean - best_y) / (std + eiEpsilon)
  std * (z * normCdf z + normPdf z)

/-- Mirrors the candidate pool of `suggest_next`: 1000 points drawn
uniformly at random from the search space (`n_candidates = 1000`). -/
def poolCandidates (draw : Nat → Nat → ℚ) (n_dims : Nat) : List (List ℚ) :=
  (List.range 1000).map (fun i => (List.range n_dims).map (fun d => draw i d))

/-- Mirrors one iteration of the model-guided branch of `suggest_next`
(at least 3 evaluated points): score the pool by EI against the fitted
surrogate `predict` and the best observed score `np.max(y)`, and select the
`np.argmax` candidate.  (The selected point is then passed through
`_weights_to_dict`.) -/
def suggestOneGuided (normCdf normPdf : ℚ → ℚ) (predict : List ℚ → ℚ × ℚ)
    (y : List ℚ) (draw : Nat → Nat → ℚ) (n_dims : Nat) : List ℚ :=
  let candidates := poolCandidates draw n_dims
  let ei := candidates.map (fun c =>
    expectedImprovement normCdf normPdf (listMax y) (predict c).1 (predict c).2)
  candidates.getD (argmaxIdx ei) []

theorem getD_map_fn (l : List (List ℚ)) (f : List ℚ → ℚ) (j : Nat)
    (h : j < l.length) : (l.map f).getD j 0 = f (l.getD j []) := by
  rw [List.getD_eq_getElem _ _ (by simpa using h), List.getD_eq_getElem _ _ h]
  simp

set_option maxRecDepth 4000

/-- C7: with at least 3 evaluated points, the candidate pool has size 1000;
`best_y` is the maximum observed score; the acquisition value of each candidate
equals `std * (z * cdf(z) + pdf(z))` with `z = (mean - best_y)/(std + 1e-8)`;
and the selected suggestion is the EI argmax over the pool, ties broken by
first-encountered order. -/
theorem claim_C7_ei_argmax (normCdf normPdf : ℚ → ℚ)
    (predict : List ℚ → ℚ × ℚ) (y : List ℚ) (draw : Nat → Nat → ℚ)
    (n_dims : Nat) (pool : List (List ℚ)) (eis : List ℚ)
    (hy : 3 ≤ y.length)
    (hpool : pool = poolCandidates draw n_dims)
    (heis : eis = pool.map (fun c =>
      expectedImprovement normCdf normPdf (listMax y)
        (predict c).1 (predict c).2)) :
    pool.length = 1000 ∧
      (listMax y ∈ y ∧ ∀ v ∈ y, v ≤ listMax y) ∧
      (∀ j, j < 1000 → eis.getD j 0 =
        (predict (pool.getD j [])).2 *
          (((predict (pool.getD j [])).1 - listMax y) /
              ((predict (pool.getD j [])).2 + 1 / 100000000) *
            normCdf (((predict (pool.getD j [])).1 - listMax y) /
              ((predict (pool.getD j [])).2 + 1 / 100000000)) +
            normPdf (((predict (pool.getD j [])).1 - listMax y) /
              ((predict (pool.getD j [])).2 + 1 / 100000000)))) ∧
      suggestOneGuided normCdf normPdf predict y draw n_dims =
        pool.getD (argmaxIdx eis) [] ∧
      argmaxIdx eis < 1000 ∧
      (∀ j, j < 1000 → eis.getD j 0 ≤ eis.getD (argmaxIdx eis) 0) ∧
      (∀ j, j < argmaxIdx eis → eis.getD j 0 < eis.getD (argmaxIdx eis) 0) := by
  subst hpool
  subst heis
  have hyne : y ≠ [] := by
    intro hc
    rw [hc] at hy
    simp at hy
  have hplen : (poolCandidates draw n_dims).length = 1000 := by
    simp [poolCandidates]
  have helen : ((poolCandidates draw n_dims).map (fun c =>
      expectedImprovement normCdf normPdf (listMax y)
        (predict c).1 (predict c).2)).length = 1000 := by
    simpa using hplen
  refine ⟨hplen, ⟨listMax_mem y hyne, fun v hv => le_listMax y v hv⟩,
    ?_, rfl, ?_, ?_, ?_⟩
  · intro j hj
    rw [getD_map_fn _ _ j (by omega)]
    simp only [expectedImprovement, eiEpsilon]
  · have hne2 : (poolCandidates draw n_dims).map (fun c =>
        expectedImprovement normCdf normPdf (listMax y)
          (predict c).1 (predict c).2) ≠ [] := by
      intro hc
      rw [hc] at helen
      simp at helen
    have := argmaxIdx_lt_length _ hne2
    omega
  · intro j hj
    exact argmaxIdx_is_max _ j (by omega)
  · intro j hj
    exact argmaxIdx_first _ j hj

/-- C7 witness: the theorem at three observed scores, a constant surrogate,
and a one-dimensional pool; the pool indeed has 1000 candidates. -/
theorem claim_C7_witness :
    3 ≤ ([1, 2, 3] : List ℚ).length ∧
      (poolCandidates (fun _ _ => 0) 1).length = 1000 :=
  ⟨by simp, (claim_C7_ei_argmax (fun _ => 0) (fun _ => 0) (fun _ => (0, 1))
    [1, 2, 3] (fun _ _ => 0) 1 (poolCandidates (fun _ _ => 0) 1)
    ((poolCandidates (fun _ _ => 0) 1).map (fun c =>
      expectedImprovement (fun _ => 0) (fun _ => 0) (listMax [1, 2, 3])
        ((fun _ => ((0 : ℚ), (1 : ℚ))) c).1 ((fun _ => ((0 : ℚ), (1 : ℚ))) c).2))
    (by simp) rfl rfl).1⟩

/-- Mean of a score window (`np.mean`). -/
def popMean (l : List ℚ) : ℚ := l.sum / (l.length : ℚ)

/-- Population variance of a score window; `np.std` is its square root. -/
def popVariance (l : List ℚ) : ℚ :=
  (l.map (fun x => (x - popMean l) ^ 2)).sum / (l.length : ℚ)

/-- The dictionary returned by `get_statistics`.  The empty-history branch
returns a dictionary holding only null statistics and NO `recent_trend`
key; absent or null entries are modelled as `none`. -/
structure OnlineStatistics where
  n_evaluations : Nat
  best_score : Option ℚ
  avg_score : Option ℚ
  score_std : Option ℝ
  recent_trend : Option ℚ

/-- Mirrors `OnlineBayesianOptimizer.get_statistics`.  `scores[-10:]` is the
slice `pyLastSlice scores 10` and `scores[:10]` is `scores.take 10`. -/
noncomputable def getStatistics (st : OnlineState) : OnlineStatistics :=
  if st.evaluation_history = [] then ⟨0, none, none, none, none⟩
  else
    let scores := st.evaluation_history.map Prod.snd
    ⟨st.evaluation_history.length, some (listMax scores),
      some (popMean scores), some (Real.sqrt ((popVariance scores : ℚ) : ℝ)),
      some (if 20 ≤ scores.length then
        popMean (pyLastSlice scores 10) - popMean (scores.take 10) else 0)⟩

theorem popVariance_nonneg (l : List ℚ) : 0 ≤ popVariance l := by
  unfold popVariance
  apply div_nonneg
  · apply List.sum_nonneg
    intro x hx
    obtain ⟨a, _, rfl⟩ := List.mem_map.mp hx
    positivity
  · positivity

/-- C8 counterexample: on an empty window `get_statistics` returns a
dictionary with no `recent_trend` entry at all (modelled as `none`) rather
than reporting the neutral value 0. -/
theorem claim_C8_counterexample :
    (getStatistics (initOnline [] 100 10)).recent_trend = none ∧
      (none : Option ℚ) ≠ some 0 := by
  constructor
  · simp [getStatistics, initOnline]
  · simp

/-- C8 (amended): on a nonempty window `get_statistics` reports the count,
the maximum score, the mean, the population standard deviation (the square
root of the population variance), and a recent trend equal to
`mean(last 10) - mean(first 10)` when the window holds at least 20 entries
and 0 otherwise; on an empty window it reports count 0 with null best, mean
and std and omits the recent trend entirely. -/
theorem claim_C8_statistics (st : OnlineState)
    (hne : st.evaluation_history ≠ []) :
    (getStatistics st).n_evaluations = st.evaluation_history.length ∧
      (getStatistics st).best_score =
        some (listMax (st.evaluation_history.map Prod.snd)) ∧
      listMax (st.evaluation_history.map Prod.snd) ∈
        st.evaluation_history.map Prod.snd ∧
      (∀ v ∈ st.evaluation_history.map Prod.snd,
        v ≤ listMax (st.evaluation_history.map Prod.snd)) ∧
      (getStatistics st).avg_score =
        some ((st.evaluation_history.map Prod.snd).sum /
          (st.evaluation_history.length : ℚ)) ∧
      (∃ σ : ℝ, (getStatistics st).score_std = some σ ∧ 0 ≤ σ ∧
        σ ^ 2 = ((popVariance (st.evaluation_history.map Prod.snd) : ℚ) : ℝ)) ∧
      (getStatistics st).recent_trend =
        some (if 20 ≤ st.evaluation_history.length then
          popMean (pyLastSlice (st.evaluation_history.map Prod.snd) 10) -
            popMean ((st.evaluation_history.map Prod.snd).take 10)
        else 0) ∧
      (∀ st0 : OnlineState, st0.evaluation_history = [] →
        getStatistics st0 = ⟨0, none, none, none, none⟩) := by
  have hmapne : st.evaluation_history.map Prod.snd ≠ [] := by
    intro hc
    exact hne (List.map_eq_nil_iff.mp hc)
  refine ⟨?_, ?_, listMax_mem _ hmapne, fun v hv => le_listMax _ v hv,
    ?_, ?_, ?_, ?_⟩
  · simp [getStatistics, hne]
  · simp [getStatistics, hne]
  · simp [getStatistics, hne, popMean]
  · refine ⟨Real.sqrt ((popVariance (st.evaluation_history.map Prod.snd) : ℚ) : ℝ),
      ?_, Real.sqrt_nonneg _, Real.sq_sqrt (by exact_mod_cast popVariance_nonneg _)⟩
    simp [getStatistics, hne]
  · simp [getStatistics, hne]
  · intro st0 h0
    simp [getStatistics, h0]

/-- C8 witness: the amended theorem at a one-entry window. -/
theorem claim_C8_witness :
    (⟨100, 10, [([("A", 1)], 2)], [], 1⟩ : OnlineState).evaluation_history ≠
        [] ∧
      (getStatistics ⟨100, 10, [([("A", 1)], 2)], [], 1⟩).n_evaluations =
        (⟨100, 10, [([("A", 1)], 2)], [], 1⟩ :
          OnlineState).evaluation_history.length :=
  ⟨by simp, (claim_C8_statistics ⟨100, 10, [([("A", 1)], 2)], [], 1⟩
    (by simp)).1⟩

/-- Models the bound check of `skopt.space.Real(low, high)` (the external
search-space library constructed in `BayesianOptimizer.__init__`), which
raises `ValueError` exactly when `high <= low`.  It is the only validation
that occurs anywhere on the session-creation path. -/
def realDimensionOk (b : SignalBounds) : Bool :=
  decide (b.min_weight < b.max_weight)

/-- Mirrors the `/optimizer/create` handler `create_optimizer` of
`optimizer_server.py`: build the bounds, construct
`OnlineBayesianOptimizer(bounds, window_size=100, update_interval=10)`
(one `Real` dimension per bound inside `BayesianOptimizer.__init__`), and
register the session; the handler performs no validation of its own, so
creation fails only when a `Real` dimension raises, and in that case the
registry is left untouched. -/
def createOptimizer (bounds : List SignalBounds)
    (registry : List (String × OnlineState)) (new_id : String) :
    Except String (List (String × OnlineState)) :=
  if bounds.all realDimensionOk then
    Except.ok ((new_id, initOnline bounds 100 10) :: registry)
  else Except.error "ValueError"

/-- C9 counterexample: a bound whose initial weight 5 lies far outside
`[0, 1]` is accepted — the session is registered with those weights — and
so is an empty signal set; neither fails session creation. -/
theorem claim_C9_counterexample :
    createOptimizer [⟨"A", 0, 1, 5⟩] [] "opt" =
        Except.ok [("opt", initOnline [⟨"A", 0, 1, 5⟩] 100 10)] ∧
      ¬ ((⟨"A", 0, 1, 5⟩ : SignalBounds).initial_weight ≤
        (⟨"A", 0, 1, 5⟩ : SignalBounds).max_weight) ∧
      createOptimizer [] [] "opt2" =
        Except.ok [("opt2", initOnline [] 100 10)] := by
  refine ⟨?_, by norm_num, ?_⟩
  · rfl
  · rfl

/-- C9 (amended): session creation fails — with the ValueError of the
search-space library, leaving the registry untouched — exactly when some bound has
`min_weight >= max_weight`; otherwise a fully-initialized session (initial
weights, empty history) is registered.  Initial weights outside
`[min_weight, max_weight]` and empty signal sets are NOT rejected. -/
theorem claim_C9_create_validation (bounds : List SignalBounds)
    (registry : List (String × OnlineState)) (new_id : String) :
    (createOptimizer bounds registry new_id =
        Except.ok ((new_id, initOnline bounds 100 10) :: registry) ↔
      ∀ b ∈ bounds, b.min_weight < b.max_weight) ∧
      (createOptimizer bounds registry new_id = Except.error "ValueError" ↔
        ∃ b ∈ bounds, b.max_weight ≤ b.min_weight) ∧
      (initOnline bounds 100 10).evaluation_history = [] ∧
      (initOnline bounds 100 10).current_weights =
        bounds.map (fun s => (s.signal_id, s.initial_weight)) := by
  have hall : bounds.all realDimensionOk = true ↔
      ∀ b ∈ bounds, b.min_weight < b.max_weight := by
    simp [realDimensionOk, List.all_eq_true]
  refine ⟨?_, ?_, rfl, rfl⟩
  · cases h : bounds.all realDimensionOk
    · simp only [createOptimizer, h, Bool.false_eq_true, if_false]
      constructor
      · intro hc
        exact absurd hc (by simp)
      · intro hc
        exact absurd (hall.mpr hc) (by simp [h])
    · simp only [createOptimizer, h, if_true]
      exact ⟨fun _ => hall.mp h, fun _ => by simp⟩
  · cases h : bounds.all realDimensionOk
    · simp only [createOptimizer, h, Bool.false_eq_true, if_false]
      have hnot : ¬ ∀ b ∈ bounds, b.min_weight < b.max_weight := by
        rw [← hall, h]
        simp
      push_neg at hnot
      obtain ⟨b, hb, hble⟩ := hnot
      simp only [Except.error.injEq, true_iff]
      exact ⟨b, hb, hble⟩
    · simp only [createOptimizer, h, if_true]
      constructor
      · intro hc
        exact absurd hc (by simp)
      · intro hc
        obtain ⟨b, hb, hble⟩ := hc
        exact absurd (hall.mp h b hb) (not_lt.mpr hble)

/-- C9 witness: the amended theorem at one valid bound; creation succeeds
and registers the session. -/
theorem claim_C9_witness :
    createOptimizer [⟨"B", 0, 1, 1/2⟩] [] "w" =
      Except.ok [("w", initOnline [⟨"B", 0, 1, 1/2⟩] 100 10)] :=
  (claim_C9_create_validation [⟨"B", 0, 1, 1/2⟩] [] "w").1.mpr (by
    intro b hb
    simp only [List.mem_singleton] at hb
    subst hb
    norm_num)
